import Mathlib

/-!
Shallow embedding of `aws-s3-transfer-manager/src/download/body.rs`:
the ordered reassembly engine (`Body`, `Sequencer`, `UnorderedBody`) for a
multipart download. Chunks arrive on a channel in arbitrary order, each
carrying a sequence number; `Body::next` buffers them in a min-heap keyed by
`seq` and releases them strictly in sequence order.

Modelling decisions:
- The mpsc channel endpoint is modelled by the list of values it will deliver,
  in arrival order; `recv` takes the head, and the empty list is the
  closed-and-drained state (`recv` then returns `None` forever).
- `BinaryHeap<cmp::Reverse<SequencedChunk>>` (a min-heap on `seq`, since
  `SequencedChunk`'s `Ord` compares only `seq`) is modelled by a list kept
  sorted by ascending `seq`; `push` is ordered insertion and `pop` takes the
  head. For distinct `seq` values this agrees with any binary heap.
- `u64` sequence numbers are modelled by `Nat`; Rust's `next_seq += 1` panics
  on overflow in debug builds, and reaching it would take `2^64` released
  chunks, so wraparound is outside the modelled range.
- The `.expect("chunk data")` panic in `Body::next` is made observable as the
  `PullResult.panicked` outcome.
- Mutating methods are state-passing: they return the updated value alongside
  any result.
-/

/-- Byte payload (`AggregatedBytes`): an opaque owned byte buffer. -/
abbrev AggregatedBytes := List Nat

/-- Opaque transfer error (`TransferError`); this layer never inspects its
contents, so it is modelled as an abstract identifier. -/
abbrev TransferError := Nat

/-- Opaque object-level metadata; never inspected by this core. -/
abbrev ObjectMeta := Unit

/-- Modelled from the spec: `ChunkResponse` is defined in
`download/worker.rs`, which is not part of the sources; spec section 3 gives
`Chunk = { seq: unsigned 64-bit, payload: optional owned byte buffer,
object_meta: optional metadata }`, matching the construction
`ChunkResponse { seq, data, object_meta }` in `body.rs`'s test module. -/
structure ChunkResponse where
  seq : Nat
  data : Option AggregatedBytes
  object_meta : Option ObjectMeta
deriving DecidableEq

instance {α β : Type} [DecidableEq α] [DecidableEq β] : DecidableEq (Except α β) :=
  fun a b =>
    match a, b with
    | Except.ok a, Except.ok b =>
      if h : a = b then isTrue (by rw [h]) else isFalse (fun hc => by cases hc; exact h rfl)
    | Except.error a, Except.error b =>
      if h : a = b then isTrue (by rw [h]) else isFalse (fun hc => by cases hc; exact h rfl)
    | Except.ok _, Except.error _ => isFalse (fun hc => by cases hc)
    | Except.error _, Except.ok _ => isFalse (fun hc => by cases hc)

/-- One value delivered by the channel: `Result<ChunkResponse, TransferError>`. -/
abbrev ChunkResult := Except TransferError ChunkResponse

/-- `BinaryHeap::push` on `Reverse<SequencedChunk>` (min-heap keyed by `seq`),
modelled as ordered insertion into a list sorted by ascending `seq`. -/
def heapPush (c : ChunkResponse) : List ChunkResponse → List ChunkResponse
  | [] => [c]
  | x :: xs => if c.seq < x.seq then c :: x :: xs else x :: heapPush c xs

/-- `Sequencer`: the reorder buffer — the next expected sequence number and
the min-heap of buffered chunks. -/
structure Sequencer where
  next_seq : Nat
  chunks : List ChunkResponse
deriving DecidableEq

/-- `Sequencer::new`. -/
def Sequencer.new : Sequencer :=
  { next_seq := 0, chunks := [] }

/-- `Sequencer::push`. -/
def Sequencer.push (s : Sequencer) (c : ChunkResponse) : Sequencer :=
  { s with chunks := heapPush c s.chunks }

/-- `Sequencer::pop`: `self.chunks.pop()` on the min-heap removes and returns
the minimum-`seq` entry, or `None` on an empty heap. -/
def Sequencer.pop (s : Sequencer) : Option ChunkResponse × Sequencer :=
  match s.chunks with
  | [] => (none, s)
  | c :: rest => (some c, { s with chunks := rest })

/-- `Sequencer::peek`. -/
def Sequencer.peek (s : Sequencer) : Option ChunkResponse :=
  s.chunks.head?

/-- `Sequencer::is_ordered`: false when `peek` is `None`, otherwise whether
the peeked chunk's `seq` equals `next_seq`. -/
def Sequencer.is_ordered (s : Sequencer) : Bool :=
  match s.peek with
  | none => false
  | some c => c.seq == s.next_seq

/-- `Sequencer::advance`: `self.next_seq += 1`. -/
def Sequencer.advance (s : Sequencer) : Sequencer :=
  { s with next_seq := s.next_seq + 1 }

/-- `UnorderedBody`: an optional receiving channel endpoint, modelled by the
list of results still to be delivered (in arrival order). `none` is a body
constructed with no channel. -/
structure UnorderedBody where
  chunks : Option (List ChunkResult)
deriving DecidableEq

/-- `UnorderedBody::new`. -/
def UnorderedBody.new (chunks : Option (List ChunkResult)) : UnorderedBody :=
  { chunks := chunks }

/-- `UnorderedBody::next`: `recv` on the channel — `None` with no channel,
otherwise the next delivered value, or `None` once the channel is closed and
drained (the empty list). -/
def UnorderedBody.next (b : UnorderedBody) : Option ChunkResult × UnorderedBody :=
  match b.chunks with
  | none => (none, b)
  | some [] => (none, b)
  | some (x :: xs) => (some x, { chunks := some xs })

/-- `Body`: the ordered stream — an `UnorderedBody` plus a `Sequencer`. -/
structure Body where
  inner : UnorderedBody
  sequencer : Sequencer
deriving DecidableEq

/-- `Body::new_from_channel`. -/
def Body.new_from_channel (chunks : Option (List ChunkResult)) : Body :=
  { inner := UnorderedBody.new chunks, sequencer := Sequencer.new }

/-- `Body::empty`. -/
def Body.empty : Body :=
  Body.new_from_channel none

/-- `Body::new`. -/
def Body.new (chunks : List ChunkResult) : Body :=
  Body.new_from_channel (some chunks)

/-- The observable outcome of one `Body::next` call: end-of-stream (`None`),
an item (`Some(Ok(bytes))` or `Some(Err(e))`), or the
`.expect("chunk data")` panic. -/
inductive PullResult where
  | eos : PullResult
  | item : Except TransferError AggregatedBytes → PullResult
  | panicked : PullResult
deriving DecidableEq

/-- The code after `Body::next`'s wait loop: pop from the sequencer, map the
popped chunk through `r.data.expect("chunk data")`, and advance the sequencer
exactly when a chunk was popped. -/
def finishPull (s : Sequencer) : PullResult × Sequencer :=
  match s.pop with
  | (none, s₁) => (PullResult.eos, s₁)
  | (some c, s₁) =>
    match c.data with
    | none => (PullResult.panicked, s₁)
    | some d => (PullResult.item (Except.ok d), s₁.advance)

/-- The wait loop of `Body::next`, for a body that holds a channel delivering
`l`: loop breaking when `is_ordered` or when `recv` returns `None`, pushing
each successful chunk and returning an error immediately. Returns the
outcome, the final sequencer, and the remaining channel state. -/
def nextGo (s : Sequencer) : List ChunkResult →
    PullResult × Sequencer × Option (List ChunkResult)
  | [] =>
    ((finishPull s).1, (finishPull s).2, some [])
  | x :: rest =>
    if s.is_ordered then
      ((finishPull s).1, (finishPull s).2, some (x :: rest))
    else
      match x with
      | Except.ok c => nextGo (s.push c) rest
      | Except.error e => (PullResult.item (Except.error e), s, some rest)

/-- `Body::next`: run the wait loop, then pop/advance. With no channel the
loop's first `recv` returns `None` (or `is_ordered` already held) and the
loop breaks at once, in either case leaving the state to `finishPull`. -/
def Body.next (b : Body) : PullResult × Body :=
  match b.inner.chunks with
  | none =>
    ((finishPull b.sequencer).1,
      { inner := b.inner, sequencer := (finishPull b.sequencer).2 })
  | some l =>
    let r := nextGo b.sequencer l
    (r.1, { inner := { chunks := r.2.2 }, sequencer := r.2.1 })

/-- The results of `n` successive `Body::next` calls. -/
def Body.drain : Nat → Body → List PullResult
  | 0, _ => []
  | n + 1, b =>
    (Body.next b).1 :: Body.drain n (Body.next b).2

/-- Push a list of chunks into the sequencer in order. -/
def Sequencer.pushAll (s : Sequencer) (l : List ChunkResponse) : Sequencer :=
  l.foldl Sequencer.push s

/-- One round of "pop then advance" on the sequencer. -/
def popAdvance (s : Sequencer) : Option ChunkResponse × Sequencer :=
  (s.pop.1, s.pop.2.advance)

/-- `n` rounds of "pop then advance", collecting the popped results. -/
def popAdvanceRounds : Nat → Sequencer → List (Option ChunkResponse)
  | 0, _ => []
  | n + 1, s =>
    (popAdvance s).1 :: popAdvanceRounds n (popAdvance s).2

/-- The minimum `seq` among a list of chunks, when the list is non-empty. -/
def minSeq? : List ChunkResponse → Option Nat
  | [] => none
  | c :: rest =>
    match minSeq? rest with
    | none => some c.seq
    | some m => some (min c.seq m)

/-- The payload of the (unique, when seqs are distinct) chunk with sequence
number `i` in `l`; defaults to the empty buffer when absent. -/
def payloadAt (l : List ChunkResponse) (i : Nat) : AggregatedBytes :=
  match l.find? (fun c => c.seq == i) with
  | some c => c.data.getD []
  | none => []

/-- The buffer ordering maintained by `heapPush`: ascending `seq`. -/
def seqLE (a b : ChunkResponse) : Prop := a.seq ≤ b.seq

instance : DecidableRel seqLE := fun a b => inferInstanceAs (Decidable (a.seq ≤ b.seq))

theorem heapPush_perm (c : ChunkResponse) (l : List ChunkResponse) :
    (heapPush c l).Perm (c :: l) := by
  induction l with
  | nil => exact List.Perm.refl _
  | cons x xs ih =>
    by_cases h : c.seq < x.seq
    · simp [heapPush, h]
    · simp only [heapPush, if_neg h]
      exact (ih.cons x).trans (List.Perm.swap c x xs)

theorem mem_heapPush {b c : ChunkResponse} {l : List ChunkResponse} :
    b ∈ heapPush c l ↔ b = c ∨ b ∈ l := by
  rw [(heapPush_perm c l).mem_iff, List.mem_cons]

theorem heapPush_sorted {c : ChunkResponse} {l : List ChunkResponse}
    (h : l.Pairwise seqLE) : (heapPush c l).Pairwise seqLE := by
  induction l with
  | nil => simp [heapPush, List.Pairwise.nil]
  | cons x xs ih =>
    rcases List.pairwise_cons.mp h with ⟨hx, hxs⟩
    by_cases hcx : c.seq < x.seq
    · simp only [heapPush, if_pos hcx]
      refine List.pairwise_cons.mpr ⟨?_, h⟩
      intro b hb
      rcases List.mem_cons.mp hb with rfl | hb
      · exact Nat.le_of_lt hcx
      · exact Nat.le_trans (Nat.le_of_lt hcx) (hx b hb)
    · simp only [heapPush, if_neg hcx]
      refine List.pairwise_cons.mpr ⟨?_, ih hxs⟩
      intro b hb
      rcases mem_heapPush.mp hb with rfl | hb
      · exact Nat.le_of_not_lt hcx
      · exact hx b hb

/-- `is_ordered` on an explicit state: true exactly when the buffer starts
with a chunk whose `seq` is `next_seq`. -/
theorem is_ordered_spec (k : Nat) (B : List ChunkResponse) :
    Sequencer.is_ordered ⟨k, B⟩ = true ↔ ∃ c B₁, B = c :: B₁ ∧ c.seq = k := by
  cases B with
  | nil => simp [Sequencer.is_ordered, Sequencer.peek]
  | cons c B₁ =>
    constructor
    · intro h
      refine ⟨c, B₁, rfl, ?_⟩
      simpa [Sequencer.is_ordered, Sequencer.peek] using h
    · rintro ⟨c₂, B₂, heq, hseq⟩
      cases heq
      simpa [Sequencer.is_ordered, Sequencer.peek] using hseq

/-- In a `seq`-sorted buffer all of whose seqs are at least `k`, if some
buffered chunk has `seq = k` then the buffer's head does. -/
theorem head_seq_eq {B : List ChunkResponse} {k : Nat}
    (hsorted : B.Pairwise seqLE)
    (hlow : ∀ c ∈ B, k ≤ c.seq)
    (hmem : ∃ c ∈ B, c.seq = k) :
    ∃ c B₁, B = c :: B₁ ∧ c.seq = k := by
  rcases hmem with ⟨c, hc, hck⟩
  cases B with
  | nil => cases hc
  | cons b B₁ =>
    refine ⟨b, B₁, rfl, Nat.le_antisymm ?_ (hlow b (List.mem_cons_self b B₁))⟩
    rcases List.mem_cons.mp hc with rfl | hc
    · exact Nat.le_of_eq hck
    · exact hck ▸ (List.pairwise_cons.mp hsorted).1 c hc

/-- If the seqs of `arrival` are distinct, `find?` at a member's `seq`
returns that member. -/
theorem find?_seq_of_nodup {arrival : List ChunkResponse}
    (hnodup : (arrival.map ChunkResponse.seq).Nodup) :
    ∀ {c : ChunkResponse}, c ∈ arrival →
      arrival.find? (fun x => x.seq == c.seq) = some c := by
  induction arrival with
  | nil => intro c hc; cases hc
  | cons a rest ih =>
    intro c hc
    rw [List.map_cons, List.nodup_cons] at hnodup
    rcases hnodup with ⟨ha, hrest⟩
    rcases List.mem_cons.mp hc with rfl | hc
    · simp [List.find?]
    · have hne : (a.seq == c.seq) = false := by
        simp only [beq_eq_false_iff_ne, ne_eq]
        intro h
        exact ha (h ▸ List.mem_map_of_mem ChunkResponse.seq hc)
      simp only [List.find?, hne]
      exact ih hrest hc

/-- `payloadAt` identifies the payload of a member chunk when seqs are
distinct. -/
theorem payloadAt_eq {arrival : List ChunkResponse}
    (hnodup : (arrival.map ChunkResponse.seq).Nodup)
    {c : ChunkResponse} (hc : c ∈ arrival) {d : AggregatedBytes}
    (hd : c.data = some d) :
    payloadAt arrival c.seq = d := by
  unfold payloadAt
  rw [find?_seq_of_nodup hnodup hc]
  simp [hd]

/-- `finishPull` on a state whose buffer head is the expected chunk: releases
its payload and advances the cursor. -/
theorem finishPull_release {k : Nat} {c : ChunkResponse} {B₁ : List ChunkResponse}
    {d : AggregatedBytes} (hd : c.data = some d) :
    finishPull ⟨k, c :: B₁⟩ = (PullResult.item (Except.ok d), ⟨k + 1, B₁⟩) := by
  simp [finishPull, Sequencer.pop, hd, Sequencer.advance]

/-- One full `Body::next` wait-loop run under the reassembly invariant: when
the seqs still owed (buffered plus in the channel) are exactly
`k, …, k + n`, the loop ends by releasing the chunk with `seq = k` and
advancing the cursor, preserving the invariant at `k + 1`. -/
theorem nextGo_release {arrival : List ChunkResponse}
    (hnodup : (arrival.map ChunkResponse.seq).Nodup)
    (hdata : ∀ c ∈ arrival, c.data.isSome = true) :
    ∀ (rem B : List ChunkResponse) (k n : Nat),
    B.Pairwise seqLE →
    ((B ++ rem).map ChunkResponse.seq).Perm (List.range' k (n + 1)) →
    (∀ c ∈ B ++ rem, c ∈ arrival) →
    ∃ B₁ rem₁,
      nextGo ⟨k, B⟩ (rem.map Except.ok) =
        (PullResult.item (Except.ok (payloadAt arrival k)), ⟨k + 1, B₁⟩,
          some (rem₁.map Except.ok)) ∧
      B₁.Pairwise seqLE ∧
      ((B₁ ++ rem₁).map ChunkResponse.seq).Perm (List.range' (k + 1) n) ∧
      (∀ c ∈ B₁ ++ rem₁, c ∈ arrival) := by
  intro rem
  induction rem with
  | nil =>
    intro B k n hsorted hunion hmem
    have hlow : ∀ c ∈ B, k ≤ c.seq := by
      intro c hc
      have : c.seq ∈ List.range' k (n + 1) :=
        hunion.mem_iff.mp (List.mem_map_of_mem ChunkResponse.seq (by simpa using hc))
      exact (List.mem_range'_1.mp this).1
    have hkmem : ∃ c ∈ B, c.seq = k := by
      have hk : k ∈ (B ++ []).map ChunkResponse.seq := by
        refine hunion.mem_iff.mpr ?_
        rw [List.range'_succ]
        exact List.mem_cons_self k _
      simpa using hk
    rcases head_seq_eq hsorted hlow hkmem with ⟨c, B₁, rfl, hck⟩
    have hcarr : c ∈ arrival := hmem c (by simp)
    rcases Option.isSome_iff_exists.mp (hdata c hcarr) with ⟨d, hd⟩
    refine ⟨B₁, [], ?_, (List.pairwise_cons.mp hsorted).2, ?_, ?_⟩
    · have hpay : payloadAt arrival k = d := hck ▸ payloadAt_eq hnodup hcarr hd
      simp [nextGo, finishPull_release hd, hpay]
    · have := hunion
      rw [List.range'_succ] at this
      simp only [List.append_nil, List.map_cons, hck] at this
      simpa using this.cons_inv
    · intro x hx
      exact hmem x (by simp at hx ⊢; exact Or.inr hx)
  | cons c rest ih =>
    intro B k n hsorted hunion hmem
    by_cases hord : Sequencer.is_ordered ⟨k, B⟩ = true
    · rcases (is_ordered_spec k B).mp hord with ⟨b, B₁, rfl, hbk⟩
      have hbarr : b ∈ arrival := hmem b (by simp)
      rcases Option.isSome_iff_exists.mp (hdata b hbarr) with ⟨d, hd⟩
      refine ⟨B₁, c :: rest, ?_, (List.pairwise_cons.mp hsorted).2, ?_, ?_⟩
      · have hpay : payloadAt arrival k = d := hbk ▸ payloadAt_eq hnodup hbarr hd
        simp [nextGo, if_pos hord, finishPull_release hd, hpay]
      · have := hunion
        rw [List.range'_succ] at this
        simp only [List.cons_append, List.map_cons, hbk] at this
        simpa using this.cons_inv
      · intro x hx
        exact hmem x (by simp at hx ⊢; tauto)
    · have hstep :
          nextGo ⟨k, B⟩ ((c :: rest).map Except.ok) =
            nextGo ⟨k, heapPush c B⟩ (rest.map Except.ok) := by
        simp [nextGo, if_neg hord, Sequencer.push]
      have hperm2 :
          ((heapPush c B ++ rest).map ChunkResponse.seq).Perm
            (List.range' k (n + 1)) := by
        refine (List.Perm.map ChunkResponse.seq ?_).trans hunion
        exact ((heapPush_perm c B).append_right rest).trans List.perm_middle.symm
      have hmem2 : ∀ x ∈ heapPush c B ++ rest, x ∈ arrival := by
        intro x hx
        rcases List.mem_append.mp hx with hx | hx
        · rcases mem_heapPush.mp hx with rfl | hx
          · exact hmem x (by simp)
          · exact hmem x (List.mem_append.mpr (Or.inl hx))
        · exact hmem x (by simp [hx])
      rcases ih (heapPush c B) k n (heapPush_sorted hsorted) hperm2 hmem2 with
        ⟨B₁, rem₁, hgo, hs₁, hu₁, hm₁⟩
      exact ⟨B₁, rem₁, hstep ▸ hgo, hs₁, hu₁, hm₁⟩

/-- Iterated `Body::next` under the reassembly invariant: `n` pulls release
seqs `k, …, k + n - 1` in order and the final pull reports end-of-stream. -/
theorem drain_ordered {arrival : List ChunkResponse}
    (hnodup : (arrival.map ChunkResponse.seq).Nodup)
    (hdata : ∀ c ∈ arrival, c.data.isSome = true) :
    ∀ (n k : Nat) (B rem : List ChunkResponse),
    B.Pairwise seqLE →
    ((B ++ rem).map ChunkResponse.seq).Perm (List.range' k n) →
    (∀ c ∈ B ++ rem, c ∈ arrival) →
    Body.drain (n + 1) ⟨⟨some (rem.map Except.ok)⟩, ⟨k, B⟩⟩ =
      (List.range' k n).map
        (fun i => PullResult.item (Except.ok (payloadAt arrival i)))
        ++ [PullResult.eos] := by
  intro n
  induction n with
  | zero =>
    intro k B rem _ hunion _
    obtain ⟨rfl, rfl⟩ : B = [] ∧ rem = [] := by simpa using hunion
    simp [Body.drain, Body.next, nextGo, finishPull, Sequencer.pop]
  | succ m ih =>
    intro k B rem hsorted hunion hmem
    rcases nextGo_release hnodup hdata rem B k m hsorted hunion hmem with
      ⟨B₁, rem₁, hgo, hs₁, hu₁, hm₁⟩
    have hnext :
        Body.next ⟨⟨some (rem.map Except.ok)⟩, ⟨k, B⟩⟩ =
          (PullResult.item (Except.ok (payloadAt arrival k)),
            ⟨⟨some (rem₁.map Except.ok)⟩, ⟨k + 1, B₁⟩⟩) := by
      simp [Body.next, hgo]
    have hunf :
        Body.drain (m + 1 + 1) ⟨⟨some (rem.map Except.ok)⟩, ⟨k, B⟩⟩ =
          (Body.next ⟨⟨some (rem.map Except.ok)⟩, ⟨k, B⟩⟩).1 ::
            Body.drain (m + 1)
              (Body.next ⟨⟨some (rem.map Except.ok)⟩, ⟨k, B⟩⟩).2 := rfl
    rw [hunf, hnext]
    rw [List.range'_succ, List.map_cons, ih (k + 1) B₁ rem₁ hs₁ hu₁ hm₁]
    simp

/-- C1: for every finite sequence of successful chunks whose `seq` values are
a permutation of `0..N-1` (each carrying a payload), delivered by the channel
in any arrival order with no errors and no premature closure, successive
`Body::next` calls yield the chunks' payloads with `seq = 0, 1, 2, …`
strictly ascending and contiguous, each exactly once, followed by
end-of-stream. -/
theorem body_next_ordered_delivery (N : Nat) (arrival : List ChunkResponse)
    (hperm : (arrival.map ChunkResponse.seq).Perm (List.range N))
    (hdata : ∀ c ∈ arrival, c.data.isSome = true) :
    Body.drain (N + 1) (Body.new (arrival.map Except.ok)) =
      (List.range N).map
        (fun i => PullResult.item (Except.ok (payloadAt arrival i)))
        ++ [PullResult.eos] := by
  have hnodup : (arrival.map ChunkResponse.seq).Nodup :=
    hperm.symm.nodup (List.nodup_range N)
  have h0 : Body.new (arrival.map Except.ok) =
      ⟨⟨some (arrival.map Except.ok)⟩, ⟨0, []⟩⟩ := rfl
  rw [h0, List.range_eq_range']
  refine drain_ordered hnodup hdata N 0 [] arrival List.Pairwise.nil ?_ ?_
  · simpa [List.range_eq_range'] using hperm
  · simp

/-- Witness for C1 at the spec's arrival order `[2, 0, 3, 1]`. -/
theorem body_next_ordered_delivery_witness :
    Body.drain 5 (Body.new
      ([⟨2, some [102], none⟩, ⟨0, some [100], none⟩,
        ⟨3, some [103], none⟩, ⟨1, some [101], none⟩].map Except.ok)) =
      [PullResult.item (Except.ok [100]), PullResult.item (Except.ok [101]),
       PullResult.item (Except.ok [102]), PullResult.item (Except.ok [103]),
       PullResult.eos] := by
  have h := body_next_ordered_delivery 4
    [⟨2, some [102], none⟩, ⟨0, some [100], none⟩,
     ⟨3, some [103], none⟩, ⟨1, some [101], none⟩]
    (by decide) (by decide)
  exact h.trans (by decide)

/-- C2: whenever the wait loop's pull yields an error, `Body::next` returns
that error immediately — bypassing the readiness check, regardless of
`next_seq` — and the sequencer (its buffered chunks and its cursor) is left
exactly as it was; only the error is consumed from the channel. -/
theorem body_next_error_immediate (s : Sequencer) (e : TransferError)
    (rest : List ChunkResult) (hord : s.is_ordered = false) :
    Body.next ⟨⟨some (Except.error e :: rest)⟩, s⟩ =
      (PullResult.item (Except.error e), ⟨⟨some rest⟩, s⟩) := by
  simp [Body.next, nextGo, hord]

/-- Witness for C2 at the spec's scenario: `seq = 5` buffered,
`next_seq = 3`, an error arriving next. -/
theorem body_next_error_immediate_witness :
    Body.next ⟨⟨some [Except.error 7]⟩, ⟨3, [⟨5, some [55], none⟩]⟩⟩ =
      (PullResult.item (Except.error 7),
        ⟨⟨some []⟩, ⟨3, [⟨5, some [55], none⟩]⟩⟩) :=
  body_next_error_immediate ⟨3, [⟨5, some [55], none⟩]⟩ 7 [] (by decide)

/-- C4: when the channel is closed and drained while the sequencer still
holds buffered chunks whose minimum `seq` is strictly greater than
`next_seq`, `Body::next` exits the wait loop, pops, and returns the buffer's
minimum-seq entry even though its `seq` does not equal `next_seq` — silently
skipping the gap rather than signaling truncation or an error. -/
theorem body_next_gap_skip (s : Sequencer) (c : ChunkResponse)
    (B₁ : List ChunkResponse) (d : AggregatedBytes)
    (hchunks : s.chunks = c :: B₁)
    (hsorted : s.chunks.Pairwise seqLE)
    (hgap : s.next_seq < c.seq)
    (hd : c.data = some d) :
    Body.next ⟨⟨some []⟩, s⟩ =
      (PullResult.item (Except.ok d), ⟨⟨some []⟩, ⟨s.next_seq + 1, B₁⟩⟩) ∧
    c.seq ≠ s.next_seq ∧ (∀ x ∈ s.chunks, c.seq ≤ x.seq) := by
  obtain ⟨k, ch⟩ := s
  simp only at hchunks
  subst hchunks
  refine ⟨?_, ?_, ?_⟩
  · simp [Body.next, nextGo, finishPull, Sequencer.pop, Sequencer.advance, hd]
  · exact ne_of_gt hgap
  · intro x hx
    rcases List.mem_cons.mp hx with rfl | hx
    · exact Nat.le_refl _
    · exact (List.pairwise_cons.mp hsorted).1 x hx

/-- Witness for C4: buffer holds only `seq = 2`, cursor expects `0`, channel
closed; the pull releases `seq = 2` anyway. -/
theorem body_next_gap_skip_witness :
    Body.next ⟨⟨some []⟩, ⟨0, [⟨2, some [9], none⟩]⟩⟩ =
      (PullResult.item (Except.ok [9]), ⟨⟨some []⟩, ⟨1, []⟩⟩) :=
  (body_next_gap_skip ⟨0, [⟨2, some [9], none⟩]⟩ ⟨2, some [9], none⟩ [] [9]
    rfl (by decide) (by decide) rfl).1

/-- C7: a `Body` constructed by `empty()` reports end-of-stream on the very
first call and on every subsequent call, its state unchanged; likewise an
`UnorderedBody` constructed with no channel returns `None` immediately on
every call. -/
theorem body_empty_eos_idempotent :
    Body.next Body.empty = (PullResult.eos, Body.empty) ∧
    (∀ n, Body.drain n Body.empty = List.replicate n PullResult.eos) ∧
    UnorderedBody.next (UnorderedBody.new none) =
      (none, UnorderedBody.new none) := by
  refine ⟨rfl, ?_, rfl⟩
  intro n
  induction n with
  | zero => rfl
  | succ m ih =>
    show PullResult.eos :: Body.drain m Body.empty =
      List.replicate (m + 1) PullResult.eos
    rw [ih, List.replicate_succ]

/-- C8: the cursor of a fresh sequencer is 0; `advance` increments it by
exactly 1 unconditionally; `push` and `pop` leave it unchanged (`is_ordered`
and `peek` take the state immutably and cannot change it); no operation
decreases it. -/
theorem sequencer_next_seq_monotone :
    Sequencer.new.next_seq = 0 ∧
    (∀ s : Sequencer, s.advance.next_seq = s.next_seq + 1) ∧
    (∀ (s : Sequencer) (c : ChunkResponse), (s.push c).next_seq = s.next_seq) ∧
    (∀ s : Sequencer, s.pop.2.next_seq = s.next_seq) ∧
    (∀ s : Sequencer, s.next_seq ≤ s.advance.next_seq ∧
      (∀ c, s.next_seq ≤ (s.push c).next_seq) ∧
      s.next_seq ≤ s.pop.2.next_seq) := by
  refine ⟨rfl, fun s => rfl, fun s c => rfl, ?_, ?_⟩
  · intro s
    obtain ⟨k, ch⟩ := s
    cases ch <;> rfl
  · intro s
    refine ⟨Nat.le_succ _, fun c => Nat.le_refl _, ?_⟩
    obtain ⟨k, ch⟩ := s
    cases ch <;> exact Nat.le_refl _

theorem pushAll_spec (s : Sequencer) (l : List ChunkResponse) :
    s.pushAll l = ⟨s.next_seq, l.foldl (fun acc c => heapPush c acc) s.chunks⟩ := by
  induction l generalizing s with
  | nil => rfl
  | cons c rest ih =>
    show (s.push c).pushAll rest = _
    rw [ih (s.push c)]
    rfl

theorem foldl_heapPush_sorted :
    ∀ (l acc : List ChunkResponse), acc.Pairwise seqLE →
      (l.foldl (fun acc c => heapPush c acc) acc).Pairwise seqLE := by
  intro l
  induction l with
  | nil => intro acc h; exact h
  | cons c rest ih =>
    intro acc h
    exact ih (heapPush c acc) (heapPush_sorted h)

theorem foldl_heapPush_perm :
    ∀ (l acc : List ChunkResponse),
      (l.foldl (fun acc c => heapPush c acc) acc).Perm (l ++ acc) := by
  intro l
  induction l with
  | nil => intro acc; simp
  | cons c rest ih =>
    intro acc
    refine (ih (heapPush c acc)).trans ?_
    refine (List.Perm.append_left rest (heapPush_perm c acc)).trans ?_
    exact List.perm_middle

theorem popAdvanceRounds_spec :
    ∀ (l : List ChunkResponse) (k : Nat),
      popAdvanceRounds l.length ⟨k, l⟩ = l.map some := by
  intro l
  induction l with
  | nil => intro k; rfl
  | cons c rest ih =>
    intro k
    show (popAdvance ⟨k, c :: rest⟩).1 ::
        popAdvanceRounds rest.length (popAdvance ⟨k, c :: rest⟩).2 = _
    have hpa : popAdvance ⟨k, c :: rest⟩ = (some c, ⟨k + 1, rest⟩) := rfl
    rw [hpa, ih (k + 1)]
    rfl

/-- C3: for every N and every permutation of N chunks with distinct seq
values in [0, N) pushed into a freshly constructed sequencer, N rounds of
pop-then-advance pop the chunks in seq order exactly 0, 1, …, N-1. -/
theorem sequencer_perm_pop_in_order (N : Nat) (arrival : List ChunkResponse)
    (hperm : (arrival.map ChunkResponse.seq).Perm (List.range N)) :
    (popAdvanceRounds N (Sequencer.new.pushAll arrival)).map
        (Option.map ChunkResponse.seq) =
      (List.range N).map some := by
  have hpush : Sequencer.new.pushAll arrival =
      ⟨0, arrival.foldl (fun acc c => heapPush c acc) []⟩ :=
    pushAll_spec Sequencer.new arrival
  have hCperm : (arrival.foldl (fun acc c => heapPush c acc) []).Perm arrival :=
    (foldl_heapPush_perm arrival []).trans (by simp)
  have hCsorted : (arrival.foldl (fun acc c => heapPush c acc) []).Pairwise seqLE :=
    foldl_heapPush_sorted arrival [] List.Pairwise.nil
  have hmapperm :
      ((arrival.foldl (fun acc c => heapPush c acc) []).map
        ChunkResponse.seq).Perm (List.range N) :=
    (hCperm.map ChunkResponse.seq).trans hperm
  have heq : (arrival.foldl (fun acc c => heapPush c acc) []).map
      ChunkResponse.seq = List.range N := by
    have hs1 : ((arrival.foldl (fun acc c => heapPush c acc) []).map
        ChunkResponse.seq).Sorted (· ≤ ·) :=
      List.pairwise_map.mpr hCsorted
    have hs2 : (List.range N).Sorted (· ≤ ·) :=
      (List.pairwise_lt_range N).imp (fun h => Nat.le_of_lt h)
    exact List.eq_of_perm_of_sorted hmapperm hs1 hs2
  have hlen : (arrival.foldl (fun acc c => heapPush c acc) []).length = N := by
    have := congrArg List.length heq
    simpa using this
  have hr := popAdvanceRounds_spec (arrival.foldl (fun acc c => heapPush c acc) []) 0
  rw [hlen] at hr
  rw [hpush, hr, ← heq, List.map_map, List.map_map]
  rfl

/-- Witness for C3 at the permutation with seqs `[2, 0, 3, 1]`. -/
theorem sequencer_perm_pop_in_order_witness :
    (popAdvanceRounds 4 (Sequencer.new.pushAll
        [⟨2, none, none⟩, ⟨0, none, none⟩, ⟨3, none, none⟩,
         ⟨1, none, none⟩])).map (Option.map ChunkResponse.seq) =
      [some 0, some 1, some 2, some 3] := by
  have h := sequencer_perm_pop_in_order 4
    [⟨2, none, none⟩, ⟨0, none, none⟩, ⟨3, none, none⟩, ⟨1, none, none⟩]
    (by decide)
  exact h.trans (by decide)

theorem minSeq?_of_sorted :
    ∀ {l : List ChunkResponse}, l.Pairwise seqLE →
      minSeq? l = l.head?.map ChunkResponse.seq := by
  intro l
  induction l with
  | nil => intro _; rfl
  | cons c rest ih =>
    intro h
    rcases List.pairwise_cons.mp h with ⟨hc, hrest⟩
    show (match minSeq? rest with
      | none => some c.seq
      | some m => some (min c.seq m)) = some c.seq
    rw [ih hrest]
    cases rest with
    | nil => rfl
    | cons b rest₂ =>
      show some (min c.seq b.seq) = some c.seq
      rw [Nat.min_eq_left (hc b (List.mem_cons_self b rest₂))]

/-- C5: for every sequencer state (with its heap invariant), `is_ordered`
returns true iff the buffer is non-empty and the minimum buffered `seq`
equals `next_seq`. -/
theorem sequencer_is_ordered_iff_min (s : Sequencer)
    (hsorted : s.chunks.Pairwise seqLE) :
    s.is_ordered = true ↔ minSeq? s.chunks = some s.next_seq := by
  obtain ⟨k, ch⟩ := s
  simp only at hsorted
  rw [minSeq?_of_sorted hsorted]
  cases ch with
  | nil => simp [Sequencer.is_ordered, Sequencer.peek]
  | cons c rest => simp [Sequencer.is_ordered, Sequencer.peek]

/-- Witness for C5 at the spec's example: pushing seqs 1 then 2 into a fresh
sequencer reports not-ready; pushing 0 afterward makes it ready. -/
theorem sequencer_is_ordered_iff_min_witness :
    Sequencer.is_ordered
        ((Sequencer.new.push ⟨1, none, none⟩).push ⟨2, none, none⟩) = false ∧
    Sequencer.is_ordered
        (((Sequencer.new.push ⟨1, none, none⟩).push ⟨2, none, none⟩).push
          ⟨0, none, none⟩) = true := by
  constructor
  · by_contra h
    have h2 := (sequencer_is_ordered_iff_min
        ((Sequencer.new.push ⟨1, none, none⟩).push ⟨2, none, none⟩)
        (by decide)).mp (by revert h; decide)
    revert h2
    decide
  · exact (sequencer_is_ordered_iff_min _ (by decide)).mpr (by decide)

/-- C6: `pop` removes and returns the minimum-seq buffered entry
unconditionally — it does not compare the removed entry's `seq` with
`next_seq` and does not modify `next_seq` — and returns `None` exactly when
the buffer is empty. -/
theorem sequencer_pop_unconditional (s : Sequencer)
    (hsorted : s.chunks.Pairwise seqLE) :
    s.pop.2.next_seq = s.next_seq ∧
    (s.pop.1 = none ↔ s.chunks = []) ∧
    ∀ c, s.pop.1 = some c →
      (∀ x ∈ s.chunks, c.seq ≤ x.seq) ∧ s.chunks = c :: s.pop.2.chunks := by
  obtain ⟨k, ch⟩ := s
  simp only at hsorted
  cases ch with
  | nil => simp [Sequencer.pop]
  | cons b rest =>
    refine ⟨rfl, by simp [Sequencer.pop], ?_⟩
    intro c hc
    have hbc : b = c := by simpa [Sequencer.pop] using hc
    subst hbc
    refine ⟨?_, rfl⟩
    intro x hx
    rcases List.mem_cons.mp hx with rfl | hx
    · exact Nat.le_refl _
    · exact (List.pairwise_cons.mp hsorted).1 x hx

/-- Witness for C6: popping from buffer `[seq 3, seq 5]` with cursor 7
returns the minimum entry and leaves the cursor at 7. -/
theorem sequencer_pop_unconditional_witness :
    (Sequencer.pop ⟨7, [⟨3, none, none⟩, ⟨5, none, none⟩]⟩).2.next_seq = 7 ∧
    ([⟨3, none, none⟩, ⟨5, none, none⟩] : List ChunkResponse) =
      ⟨3, none, none⟩ ::
        (Sequencer.pop ⟨7, [⟨3, none, none⟩, ⟨5, none, none⟩]⟩).2.chunks := by
  have h := sequencer_pop_unconditional
    ⟨7, [⟨3, none, none⟩, ⟨5, none, none⟩]⟩ (by decide)
  exact ⟨h.1, (h.2.2 ⟨3, none, none⟩ (by decide)).2⟩

theorem finishPull_item_ok {s : Sequencer} {d : AggregatedBytes}
    (h : (finishPull s).1 = PullResult.item (Except.ok d)) :
    ∃ c rest, s.chunks = c :: rest ∧ c.data = some d := by
  obtain ⟨k, ch⟩ := s
  cases ch with
  | nil => simp [finishPull, Sequencer.pop] at h
  | cons c rest =>
    cases hd : c.data with
    | none => simp [finishPull, Sequencer.pop, hd] at h
    | some d₂ =>
      refine ⟨c, rest, rfl, ?_⟩
      rw [hd]
      simp only [finishPull, Sequencer.pop, hd] at h
      cases h
      rfl

theorem finishPull_not_error (s : Sequencer) (e : TransferError) :
    (finishPull s).1 ≠ PullResult.item (Except.error e) := by
  obtain ⟨k, ch⟩ := s
  cases ch with
  | nil => simp [finishPull, Sequencer.pop]
  | cons c rest =>
    cases hd : c.data <;> simp [finishPull, Sequencer.pop, hd]

theorem nextGo_ok_source :
    ∀ (l : List ChunkResult) (s : Sequencer) (d : AggregatedBytes),
    (nextGo s l).1 = PullResult.item (Except.ok d) →
    (∃ c ∈ s.chunks, c.data = some d) ∨
      (∃ c, Except.ok c ∈ l ∧ c.data = some d) := by
  intro l
  induction l with
  | nil =>
    intro s d h
    left
    rcases finishPull_item_ok (show (finishPull s).1 = _ from h) with
      ⟨c, rest, heq, hd⟩
    exact ⟨c, heq ▸ List.mem_cons_self c rest, hd⟩
  | cons x rest ih =>
    intro s d h
    by_cases hord : s.is_ordered = true
    · left
      have h2 : (finishPull s).1 = PullResult.item (Except.ok d) := by
        simpa [nextGo, hord] using h
      rcases finishPull_item_ok h2 with ⟨c, rest₂, heq, hd⟩
      exact ⟨c, heq ▸ List.mem_cons_self c rest₂, hd⟩
    · cases x with
      | ok c =>
        have h2 : (nextGo (s.push c) rest).1 = PullResult.item (Except.ok d) := by
          simpa [nextGo, hord] using h
        rcases ih (s.push c) d h2 with ⟨c₂, hc₂, hd₂⟩ | ⟨c₂, hc₂, hd₂⟩
        · rcases mem_heapPush.mp (show c₂ ∈ heapPush c s.chunks from hc₂) with
            rfl | hmem
          · exact Or.inr ⟨c₂, List.mem_cons_self _ _, hd₂⟩
          · exact Or.inl ⟨c₂, hmem, hd₂⟩
        · exact Or.inr ⟨c₂, List.mem_cons_of_mem _ hc₂, hd₂⟩
      | error e =>
        simp [nextGo, hord] at h

/-- C9: if `Body::next` pops a buffered chunk whose `data` field is `None`,
the call hits the `.expect("chunk data")` panic; and `Body::next` only ever
returns `Ok` with a payload supplied by a chunk whose `data` is `Some`
(buffered, or still in the channel, at the start of the call). -/
theorem body_next_expect_panic :
    (∀ (s : Sequencer) (c : ChunkResponse) (B₁ : List ChunkResponse)
        (ch : Option (List ChunkResult)),
      s.chunks = c :: B₁ → c.data = none → s.is_ordered = true →
      (Body.next ⟨⟨ch⟩, s⟩).1 = PullResult.panicked) ∧
    (∀ (b : Body) (d : AggregatedBytes),
      (Body.next b).1 = PullResult.item (Except.ok d) →
      (∃ c ∈ b.sequencer.chunks, c.data = some d) ∨
        (∃ c, Except.ok c ∈ b.inner.chunks.getD [] ∧ c.data = some d)) := by
  constructor
  · intro s c B₁ ch hchunks hd hord
    obtain ⟨k, chl⟩ := s
    simp only at hchunks
    subst hchunks
    cases ch with
    | none => simp [Body.next, finishPull, Sequencer.pop, hd]
    | some l =>
      cases l with
      | nil => simp [Body.next, nextGo, finishPull, Sequencer.pop, hd]
      | cons x r =>
        simp [Body.next, nextGo, hord, finishPull, Sequencer.pop, hd]
  · intro b d h
    obtain ⟨⟨ch⟩, s⟩ := b
    cases ch with
    | none =>
      left
      have h2 : (finishPull s).1 = PullResult.item (Except.ok d) := by
        simpa [Body.next] using h
      rcases finishPull_item_ok h2 with ⟨c, rest, heq, hd⟩
      exact ⟨c, heq ▸ List.mem_cons_self c rest, hd⟩
    | some l =>
      have h2 : (nextGo s l).1 = PullResult.item (Except.ok d) := by
        simpa [Body.next] using h
      simpa using nextGo_ok_source l s d h2

/-- Witness for C9: a ready buffered chunk with `data = None` makes the next
pull panic. -/
theorem body_next_expect_panic_witness :
    (Body.next ⟨⟨none⟩, ⟨0, [⟨0, none, none⟩]⟩⟩).1 = PullResult.panicked :=
  body_next_expect_panic.1 ⟨0, [⟨0, none, none⟩]⟩ ⟨0, none, none⟩ [] none
    rfl rfl (by decide)

theorem nextGo_error_frame :
    ∀ (l : List ChunkResult) (s : Sequencer) (e : TransferError),
    (nextGo s l).1 = PullResult.item (Except.error e) →
    (nextGo s l).2.1.next_seq = s.next_seq ∧
    ∃ pushed : List ChunkResponse,
      (nextGo s l).2.1.chunks.Perm (s.chunks ++ pushed) ∧
      ∀ c ∈ pushed, Except.ok c ∈ l := by
  intro l
  induction l with
  | nil =>
    intro s e h
    exact absurd h (finishPull_not_error s e)
  | cons x rest ih =>
    intro s e h
    by_cases hord : s.is_ordered = true
    · have h2 : (finishPull s).1 = PullResult.item (Except.error e) := by
        simpa [nextGo, hord] using h
      exact absurd h2 (finishPull_not_error s e)
    · cases x with
      | ok c =>
        have hng : nextGo s (Except.ok c :: rest) = nextGo (s.push c) rest := by
          simp [nextGo, hord]
        rw [hng] at h ⊢
        rcases ih (s.push c) e h with ⟨hseq, pushed, hperm, hmem⟩
        refine ⟨hseq, c :: pushed, ?_, ?_⟩
        · refine hperm.trans ?_
          refine (List.Perm.append_right pushed (heapPush_perm c s.chunks)).trans ?_
          exact List.perm_middle.symm
        · intro x hx
          rcases List.mem_cons.mp hx with rfl | hx
          · exact List.mem_cons_self _ _
          · exact List.mem_cons_of_mem _ (hmem x hx)
      | error e₂ =>
        have hng : nextGo s (Except.error e₂ :: rest) =
            (PullResult.item (Except.error e₂), s, some rest) := by
          simp [nextGo, hord]
        rw [hng]
        exact ⟨rfl, [], by simp, by simp⟩

/-- C10: whenever `Body::next` returns an error, the sequencer's `next_seq`
equals its value at the start of the call and no chunk has been removed from
the reorder buffer; the only state change on that path is that successful
chunks pulled earlier in the same call were pushed into the buffer. -/
theorem body_next_error_frame (b : Body) (e : TransferError)
    (h : (Body.next b).1 = PullResult.item (Except.error e)) :
    (Body.next b).2.sequencer.next_seq = b.sequencer.next_seq ∧
    ∃ pushed : List ChunkResponse,
      (Body.next b).2.sequencer.chunks.Perm (b.sequencer.chunks ++ pushed) ∧
      ∀ c ∈ pushed, Except.ok c ∈ b.inner.chunks.getD [] := by
  obtain ⟨⟨ch⟩, s⟩ := b
  cases ch with
  | none =>
    have h2 : (finishPull s).1 = PullResult.item (Except.error e) := by
      simpa [Body.next] using h
    exact absurd h2 (finishPull_not_error s e)
  | some l =>
    have h2 : (nextGo s l).1 = PullResult.item (Except.error e) := by
      simpa [Body.next] using h
    rcases nextGo_error_frame l s e h2 with ⟨hseq, pushed, hperm, hmem⟩
    refine ⟨by simpa [Body.next] using hseq, pushed, ?_, ?_⟩
    · simpa [Body.next] using hperm
    · simpa using hmem

/-- Witness for C10: an error at the head of the channel with seq 5 buffered
and cursor 3 leaves the cursor at 3. -/
theorem body_next_error_frame_witness :
    (Body.next ⟨⟨some [Except.error 4]⟩,
        ⟨3, [⟨5, some [], none⟩]⟩⟩).2.sequencer.next_seq = 3 :=
  (body_next_error_frame ⟨⟨some [Except.error 4]⟩, ⟨3, [⟨5, some [], none⟩]⟩⟩
    4 (by decide)).1
